import Mathlib

/-!
# mini-docker: image builder, registry and container runtime

A shallow embedding of `internal/image/builder.go`, `internal/registry/registry.go`
and `internal/runtime/runtime.go`, with the properties of the specification stated
over it.

Go values are rendered as follows.

* `string` is `String`, `[]byte` is `List UInt8`, `int64` is `Int`.
* A `(value, error)` result in which exactly one side is set is an `Except`.
  A call whose error the source discards (`x, _ := f()`) is a total function
  returning the value Go leaves in `x`.
* The file system is an association list from cleaned paths to nodes; the newest
  binding of a path is the one in force.
* `encoding/json` is not part of the repository: it is a parameter (`Codec`).
* The clock, the outcome of `mount` and the outcome of starting a process are
  parameters of `RunContainer`.
-/

namespace MiniDocker

set_option maxRecDepth 100000

/-! ## Definitions -/

/-! ### `path/filepath` on Unix -/

/-- Cleaned path: whether it starts at `/`, and its components in order.
`/a/b` is `⟨true, ["a", "b"]⟩`, `.` is `⟨false, []⟩`, `../x` is `⟨false, ["..", "x"]⟩`. -/
structure Path where
  rooted : Bool
  comps : List String
deriving DecidableEq, Repr

/-- Split a string at every `/`; `acc` holds the current component, reversed. -/
def splitSep : List Char → List Char → List String
  | acc, [] => [String.mk acc.reverse]
  | acc, c :: cs =>
    if c = '/' then String.mk acc.reverse :: splitSep [] cs else splitSep (c :: acc) cs

/-- One component of `filepath.Clean`, on a stack whose head is the last component kept:
empty components and `.` vanish, `..` removes the component before it, a `..` that
would climb above `/` vanishes and one that climbs above a relative start is kept. -/
def cleanStep (rooted : Bool) (stack : List String) (c : String) : List String :=
  if c = "" ∨ c = "." then stack
  else if c = ".." then
    match stack with
    | [] => if rooted then [] else [".."]
    | top :: rest => if top = ".." then ".." :: top :: rest else rest
  else c :: stack

/-- Clean the components `cs` onto the already cleaned path `p`. -/
def cleanFrom (p : Path) (cs : List String) : Path :=
  ⟨p.rooted, (cs.foldl (cleanStep p.rooted) p.comps.reverse).reverse⟩

/-- The function `filepath.Clean`. -/
def Clean (s : String) : Path :=
  cleanFrom ⟨s.data.head? = some '/', []⟩ (splitSep [] s.data)

/-- The function `filepath.Join(elems...)`: empty elements are dropped, the rest are
joined with `/` and cleaned. Every call in the repository passes a non-empty literal,
so the all-empty case (Go returns `""`) does not arise. -/
def Join (elems : List String) : Path :=
  Clean ("/".intercalate (elems.filter (fun e => e ≠ "")))

/-- The call `filepath.Join(p, s)` for a `p` that is itself the result of `Join`:
the components of `s` are cleaned onto `p`. -/
def Path.join (p : Path) (s : String) : Path :=
  cleanFrom p (splitSep [] s.data)

/-- The function `filepath.Dir` on a cleaned path. -/
def Path.parent (p : Path) : Path :=
  ⟨p.rooted, p.comps.dropLast⟩

/-- Printed form of a cleaned path. -/
def Path.toString (p : Path) : String :=
  if p.rooted then "/" ++ "/".intercalate p.comps
  else if p.comps = [] then "." else "/".intercalate p.comps

/-- Path `p` is `d` itself or lies below `d`. -/
def Path.inside (d p : Path) : Prop :=
  p.rooted = d.rooted ∧ d.comps <+: p.comps

instance (d p : Path) : Decidable (Path.inside d p) :=
  inferInstanceAs (Decidable (_ ∧ _))

/-! ### File system -/

deriving instance DecidableEq for Except

/-- Go byte slice. -/
abbrev Bytes := List UInt8

/-- What a path names. -/
inductive Node where
  | dir
  | file (data : Bytes)
deriving DecidableEq, Repr

/-- File system: newest binding first. -/
abbrev FS := List (Path × Node)

/-- Node bound to `p`, if any. -/
def stat : FS → Path → Option Node
  | [], _ => none
  | (k, n) :: rest, p => if k = p then some n else stat rest p

/-- The function `os.ReadFile`: the bytes of a regular file; `none` is the error case
(missing path, or a directory). -/
def ReadFile (fs : FS) (p : Path) : Option Bytes :=
  match stat fs p with
  | some (Node.file b) => some b
  | _ => none

/-- Name of `k` as an entry of directory `d`, when `k` is directly inside `d`. -/
def childName (d k : Path) : Option String :=
  if k.rooted = d.rooted ∧ k.comps.dropLast = d.comps then k.comps.getLast? else none

/-- Order of file names: by character, as Go compares strings bytewise. -/
def nameLE (a b : String) : Prop := a.data ≤ b.data

instance : DecidableRel nameLE :=
  fun a b => inferInstanceAs (Decidable (a.data ≤ b.data))

/-- The function `os.ReadDir` with its error discarded: the names of the entries of
`d`, sorted by file name; no entries when `d` is not a directory. -/
def ReadDir (fs : FS) (d : Path) : List String :=
  match stat fs d with
  | some Node.dir => ((fs.filterMap (fun e => childName d e.1)).dedup).insertionSort nameLE
  | _ => []

/-- The function `os.WriteFile`: the parent must be a directory and the path must not
be one. On failure the file system is returned as it was. -/
def WriteFile (fs : FS) (p : Path) (b : Bytes) : FS × Option String :=
  match stat fs p.parent with
  | some Node.dir =>
    match stat fs p with
    | some Node.dir => (fs, some "is a directory")
    | _ => ((p, Node.file b) :: fs, none)
  | _ => (fs, some "no such file or directory")

/-- Make sure `p` is a directory: keep it, create it, or fail on a regular file. -/
def ensureDir (fs : FS) (p : Path) : FS × Option String :=
  match stat fs p with
  | some Node.dir => (fs, none)
  | some (Node.file _) => (fs, some "not a directory")
  | none => ((p, Node.dir) :: fs, none)

/-- Walk of `os.MkdirAll`: `pre` is the prefix already ensured, `rest` the components
still to create below it. Directories created before a failure stay. -/
def mkdirWalk (rooted : Bool) : List String → List String → FS → FS × Option String
  | pre, [], fs => ensureDir fs ⟨rooted, pre⟩
  | pre, c :: cs, fs =>
    match ensureDir fs ⟨rooted, pre⟩ with
    | (fs1, none) => mkdirWalk rooted (pre ++ [c]) cs fs1
    | (fs1, some e) => (fs1, some e)

/-- The function `os.MkdirAll`: create `p` and every missing ancestor. -/
def MkdirAll (fs : FS) (p : Path) : FS × Option String :=
  mkdirWalk p.rooted [] p.comps fs

/-! ### `internal/image`: the record -/

/-- The struct `image.Image`. `Metadata` is a Go map, kept as its key/value pairs. -/
structure Image where
  Name : String
  ID : String
  Rootfs : String
  Created : Int
  Metadata : List (String × String)
deriving DecidableEq, Repr

/-- Zero value of `image.Image`. -/
def Image.zero : Image := ⟨"", "", "", 0, []⟩

/-- The two `encoding/json` functions the repository calls. `decode b` is the value
`json.Unmarshal(b, &img)` leaves in a zero `img` for a non-empty `b`, whether or not
it reports an error (on a type mismatch the decoder records the error and goes on
filling the other fields). -/
structure Codec where
  Marshal : Image → Bytes
  decode : Bytes → Image

/-- The call `json.Unmarshal(b, &img)` on a zero `img`, error discarded. Empty input is
a syntax error that leaves `img` untouched. -/
def Codec.Unmarshal (c : Codec) (b : Bytes) : Image :=
  if b = [] then Image.zero else c.decode b

/-! ### `internal/image`: the builder -/

/-- The field `tar.Header.Typeflag`, as far as the builder tells the values apart. -/
inductive Typeflag where
  | dir
  | reg
  | other
deriving DecidableEq, Repr

/-- The fields of `tar.Header` the builder reads. -/
structure Header where
  Name : String
  Typeflag : Typeflag
  Mode : Nat
deriving DecidableEq, Repr

/-- One archive entry: its header and the bytes `io.Copy` reads for it. -/
structure TarEntry where
  h : Header
  data : Bytes
deriving DecidableEq, Repr

/-- What `tar.Reader.Next` yields: the entries in order, then `io.EOF` (`none`) or an
error. -/
structure TarStream where
  entries : List TarEntry
  err : Option String
deriving DecidableEq, Repr

/-- What the environment answers during one `BuildFromTar`: `time.Now().UnixNano()`
for the id and `time.Now().Unix()` for the creation time. -/
structure BuildEnv where
  nano : Int
  unix : Int
deriving DecidableEq, Repr

/-- The loop of `BuildFromTar` over the entries. `os.Create` followed by `io.Copy` is
`WriteFile`; `os.Chmod` changes no path binding. Returns the file system reached and
the error that stopped the loop, if any. -/
def extractLoop (imgDir : Path) : List TarEntry → FS → FS × Option String
  | [], fs => (fs, none)
  | e :: rest, fs =>
    let target := imgDir.join e.h.Name
    match e.h.Typeflag with
    | Typeflag.dir => extractLoop imgDir rest (MkdirAll fs target).1
    | Typeflag.reg =>
      let fs1 := (MkdirAll fs target.parent).1
      match WriteFile fs1 target e.data with
      | (fs2, some err) => (fs2, some err)
      | (fs2, none) => extractLoop imgDir rest fs2
    | Typeflag.other => extractLoop imgDir rest fs

/-- Entry name without a `..` component. -/
def noDotDot (name : String) : Prop :=
  ".." ∉ splitSep [] name.data

instance (name : String) : Decidable (noDotDot name) :=
  inferInstanceAs (Decidable (_ ∉ _))

/-- Path `q` is `d` itself or one of its ancestors. -/
def Path.above (d q : Path) : Prop :=
  q.rooted = d.rooted ∧ q.comps <+: d.comps

instance (d q : Path) : Decidable (Path.above d q) :=
  inferInstanceAs (Decidable (_ ∧ _))

/-- The directory `filepath.Join(storageDir, "images", id)` of `BuildFromTar`. -/
def buildDir (env : BuildEnv) (storageDir : String) : Path :=
  (Join [storageDir, "images"]).join (toString env.nano)

/-- The function `BuildFromTar`; `tar` is `none` when `os.Open(tarPath)` fails. -/
def BuildFromTar (env : BuildEnv) (fs : FS) (tar : Option TarStream) (name : String)
    (storageDir : String) : Except String Image × FS :=
  let id := toString env.nano
  let imgDir := buildDir env storageDir
  match MkdirAll fs imgDir with
  | (fs1, some err) => (Except.error err, fs1)
  | (fs1, none) =>
    match tar with
    | none => (Except.error "open: no such file or directory", fs1)
    | some t =>
      match extractLoop imgDir t.entries fs1 with
      | (fs2, some err) => (Except.error err, fs2)
      | (fs2, none) =>
        match t.err with
        | some err => (Except.error err, fs2)
        | none => (Except.ok ⟨name, id, imgDir.toString, env.unix, []⟩, fs2)

/-! ### `internal/registry` -/

/-- The struct `registry.LocalRegistry`. -/
structure LocalRegistry where
  base : String
deriving DecidableEq, Repr

/-- The function `NewLocalRegistry`: creates `base/images`. -/
def NewLocalRegistry (fs : FS) (base : String) : LocalRegistry × FS :=
  let fs1 := (MkdirAll fs (Join [base, "images"])).1
  (⟨base⟩, fs1)

/-- The method `LocalRegistry.StoragePath`. -/
def LocalRegistry.StoragePath (r : LocalRegistry) : String := r.base

/-- The directory `filepath.Join(r.base, "images_meta")`. -/
def LocalRegistry.metaDir (r : LocalRegistry) : Path :=
  Join [r.base, "images_meta"]

/-- The method `LocalRegistry.PushImage`: returns the file system after the call and
the error of `os.WriteFile`. The errors of `os.MkdirAll` and `json.Marshal` are
discarded, as in the source. -/
def PushImage (c : Codec) (r : LocalRegistry) (fs : FS) (img : Image) : FS × Option String :=
  let metaDir := r.metaDir
  let fs1 := (MkdirAll fs metaDir).1
  let b := c.Marshal img
  WriteFile fs1 (metaDir.join (img.ID ++ ".json")) b

/-- Body of the loop of `ListImages` for one directory entry: read, decode, append. -/
def listStep (c : Codec) (fs : FS) (metaDir : Path) (res : List Image) (f : String) :
    List Image :=
  let b := (ReadFile fs (metaDir.join f)).getD []
  let img := c.Unmarshal b
  res ++ [img]

/-- The method `LocalRegistry.ListImages`; its error result is always nil. -/
def ListImages (c : Codec) (r : LocalRegistry) (fs : FS) : List Image × Option String :=
  let metaDir := r.metaDir
  let files := ReadDir fs metaDir
  (files.foldl (listStep c fs metaDir) [], none)

/-- The loop of `GetImageByName` over the listed images. -/
def scanByName (name : String) : List Image → Option Image
  | [] => none
  | img :: rest => if img.Name = name then some img else scanByName name rest

/-- The method `LocalRegistry.GetImageByName`. -/
def GetImageByName (c : Codec) (r : LocalRegistry) (fs : FS) (name : String) :
    Except String Image :=
  let images := (ListImages c r fs).1
  match scanByName name images with
  | some img => Except.ok img
  | none => Except.error "image not found"

/-! ### `internal/runtime` -/

/-- The handle `*os.Process` as the table sees it: the pid, and whether `Wait` has
already collected the process (after which `Kill` answers
"os: process already finished"). -/
structure Process where
  Pid : Int
  done : Bool
deriving DecidableEq, Repr

/-- The method `os.Process.Kill`: the error it returns, if any. -/
def Process.Kill (p : Process) : Option String :=
  if p.done then some "os: process already finished" else none

/-- The package variable `running`, a Go map, as an association list with at most one
binding per id. -/
abbrev Table := List (String × Process)

/-- The lookup `running[id]`. -/
def Table.get : Table → String → Option Process
  | [], _ => none
  | (k, p) :: rest, id => if k = id then some p else Table.get rest id

/-- The builtin `delete(running, id)`. -/
def Table.delete (t : Table) (id : String) : Table :=
  t.filter (fun e => e.1 ≠ id)

/-- The assignment `running[id] = p`. -/
def Table.set (t : Table) (id : String) (p : Process) : Table :=
  (id, p) :: t.delete id

/-- The errors of the runtime package. -/
inductive RtError where
  /-- The error `fmt.Errorf("image not found: %s", imageName)`. -/
  | imageNotFound (imageName : String)
  /-- The error `fmt.Errorf("mount overlay failed: %v: %s", err, string(out))`. -/
  | mountFailed (err out : String)
  /-- The error of `cmd.Start()`. -/
  | startFailed (err : String)
  /-- The error `fmt.Errorf("container not found")`. -/
  | containerNotFound
  /-- The error of `p.Kill()`. -/
  | killFailed (err : String)
deriving DecidableEq, Repr

/-- The struct `exec.Cmd`, with the fields of `SysProcAttr` the runtime sets. -/
structure Cmd where
  Path : String
  Args : List String
  Cloneflags : Nat
  Chroot : String
deriving DecidableEq, Repr

/-- The function `exec.Command(name, arg...)`: argv is the name followed by the
arguments. -/
def Command (name : String) (arg : List String) : Cmd :=
  ⟨name, name :: arg, 0, ""⟩

/-- The constant `syscall.CLONE_NEWUTS`. -/
def CLONE_NEWUTS : Nat := 0x04000000

/-- The constant `syscall.CLONE_NEWPID`. -/
def CLONE_NEWPID : Nat := 0x20000000

/-- The constant `syscall.CLONE_NEWNS`. -/
def CLONE_NEWNS : Nat := 0x00020000

/-- The constant `syscall.CLONE_NEWNET`. -/
def CLONE_NEWNET : Nat := 0x40000000

/-- Where the supervising goroutine of a container stands: blocked in `cmd.Wait()`,
about to run `umount`, about to delete the table entry, or returned. -/
inductive Phase where
  | waiting
  | unmounting
  | removing
  | finished
deriving DecidableEq, Repr

/-- A started container: what the operating system holds for it (the process, the
overlay mount) and the position of its supervising goroutine. -/
structure Container where
  id : String
  rootfs : Path
  pid : Int
  alive : Bool
  mounted : Bool
  phase : Phase
deriving DecidableEq, Repr

/-- What the runtime does to the outside world, in the order it happens. -/
inductive Event where
  /-- The command `mount` was run with these arguments. -/
  | mount (id : String) (args : List String)
  /-- The call `cmd.Start()` was made. -/
  | start (id : String) (cmd : Cmd)
  /-- The assignment `running[id] = cmd.Process`. -/
  | insert (id : String)
  /-- The process of the `n`-th container started terminated. -/
  | exit (n : Nat)
  /-- The call `cmd.Wait()` returned in the supervising goroutine of the `n`-th
  container. -/
  | wait (n : Nat)
  /-- The command `umount rootfs` was run by the supervising goroutine of the `n`-th
  container. -/
  | umount (n : Nat)
  /-- The statement `delete(running, id)` of the supervising goroutine of the `n`-th
  container. -/
  | remove (n : Nat)
  /-- The call `p.Kill()` of `KillContainer` succeeded. -/
  | signal (id : String)
  /-- The statement `delete(running, id)` of `KillContainer`. -/
  | killRemove (id : String)
deriving DecidableEq, Repr

/-- Everything the runtime reads and writes. -/
structure World where
  fs : FS
  running : Table
  conts : List Container
  log : List Event
deriving DecidableEq, Repr

/-- What the environment answers during one `RunContainer`: the clock, the failure of
`mount` if it fails (error and output), and the pid or the error of `cmd.Start()`. -/
structure RunEnv where
  now : Int
  mountErr : Option (String × String)
  startRes : Except String Int

/-- The struct `runtime.Runtime`. -/
structure Runtime where
  storage : String
  workdir : Path
deriving DecidableEq, Repr

/-- The function `NewRuntime`. -/
def NewRuntime (fs : FS) (storagePath : String) : Runtime × FS :=
  let base := Join [storagePath, "containers"]
  let fs1 := (MkdirAll fs base).1
  (⟨storagePath, base⟩, fs1)

/-- The loop of `RunContainer` over the entries of `images_meta`; the result is the
value of `imageRoot` after the loop. Decoding into the local struct `tmp` (fields
`name`, `rootfs`, `id`) reads the same keys as decoding into `image.Image`. -/
def resolveLoop (c : Codec) (fs : FS) (metaDir : Path) (imageName : String) :
    List String → String
  | [] => ""
  | m :: rest =>
    let b := (ReadFile fs (metaDir.join m)).getD []
    if b = [] then resolveLoop c fs metaDir imageName rest
    else
      let t := c.Unmarshal b
      if t.Name = imageName then t.Rootfs
      else resolveLoop c fs metaDir imageName rest

/-- Lines 30 to 46 of `RunContainer`: the value of `imageRoot`. -/
def resolveImage (c : Codec) (r : Runtime) (fs : FS) (imageName : String) : String :=
  let metaDir := Join [r.storage, "images_meta"]
  let metas := ReadDir fs metaDir
  resolveLoop c fs metaDir imageName metas

/-- The command `RunContainer` starts: `/bin/sh` unless `cmdArgs` names a program. -/
def containerCmd (cmdArgs : List String) (rootfs : Path) : Cmd :=
  let execCmd := match cmdArgs with
    | [] => "/bin/sh"
    | a :: _ => a
  let cmd := Command execCmd []
  { cmd with
    Cloneflags := CLONE_NEWUTS ||| CLONE_NEWPID ||| CLONE_NEWNS ||| CLONE_NEWNET
    Chroot := rootfs.toString }

/-- The method `Runtime.RunContainer`, up to the point where it returns; the supervising
goroutine it leaves behind is the `Container` it appends, in phase `waiting`. -/
def RunContainer (c : Codec) (r : Runtime) (env : RunEnv) (w : World) (imageName : String)
    (cmdArgs : List String) : Except RtError String × World :=
  let imageRoot := resolveImage c r w.fs imageName
  if imageRoot = "" then (Except.error (RtError.imageNotFound imageName), w)
  else
    let id := toString env.now
    let lower := imageRoot
    let upper := (r.workdir.join id).join "upper"
    let work := (r.workdir.join id).join "work"
    let rootfs := (r.workdir.join id).join "rootfs"
    let fs1 := (MkdirAll w.fs upper).1
    let fs2 := (MkdirAll fs1 work).1
    let fs3 := (MkdirAll fs2 rootfs).1
    let args := ["-t", "overlay", "overlay", "-o",
      "lowerdir=" ++ lower ++ ",upperdir=" ++ upper.toString ++ ",workdir=" ++ work.toString,
      rootfs.toString]
    let w1 : World := { w with fs := fs3, log := w.log ++ [Event.mount id args] }
    match env.mountErr with
    | some (err, out) => (Except.error (RtError.mountFailed err out), w1)
    | none =>
      let cmd := containerCmd cmdArgs rootfs
      let w2 : World := { w1 with log := w1.log ++ [Event.start id cmd] }
      match env.startRes with
      | Except.error err => (Except.error (RtError.startFailed err), w2)
      | Except.ok pid =>
        (Except.ok id,
          { w2 with
            running := w2.running.set id ⟨pid, false⟩
            conts := w2.conts ++ [⟨id, rootfs, pid, true, true, Phase.waiting⟩]
            log := w2.log ++ [Event.insert id] })

/-- The function `ListRunningContainers`: one `{id, pid}` per table entry. -/
def ListRunningContainers (running : Table) : List (String × Int) :=
  running.foldl (fun res e => res ++ [(e.1, e.2.Pid)]) []

/-- The function `KillContainer` on the table: the error returned, and the table after
the call. -/
def KillContainer (running : Table) (id : String) : Option RtError × Table :=
  match running.get id with
  | some p =>
    match p.Kill with
    | some err => (some (RtError.killFailed err), running)
    | none => (none, running.delete id)
  | none => (some RtError.containerNotFound, running)

/-! ### Interleavings of the runtime -/

/-- The atomic steps of an execution: a call of `RunContainer`, the termination of
the process of the `n`-th container started, the three statements of its supervising
goroutine (`cmd.Wait()` returns, `umount` is run with its result ignored, the table
entry is deleted), and a call of `KillContainer`. A container is named by its position
in `World.conts`, since the clock may give two containers the same id. -/
inductive Action where
  | run (env : RunEnv) (imageName : String) (cmdArgs : List String)
  | exit (n : Nat)
  | supWait (n : Nat)
  | supUmount (n : Nat) (ok : Bool)
  | supDelete (n : Nat)
  | kill (id : String)

/-- The handle with this id and pid after `Wait` collected its process. -/
def Table.markDone (t : Table) (id : String) (pid : Int) : Table :=
  t.map (fun e => if e.1 = id ∧ e.2.Pid = pid then (e.1, { e.2 with done := true }) else e)

/-- Position of the container whose overlay is the topmost mount on `path`: the last
one started on that directory that is still mounted. -/
def topMount (path : Path) : List Container → Option Nat
  | [] => none
  | k :: rest =>
    match topMount path rest with
    | some j => some (j + 1)
    | none => if k.rootfs = path ∧ k.mounted = true then some 0 else none

/-- A successful `umount path`: the topmost mount on `path` goes away. -/
def unmountTop (path : Path) (conts : List Container) : List Container :=
  match topMount path conts with
  | some j =>
    match conts[j]? with
    | some k0 => conts.set j { k0 with mounted := false }
    | none => conts
  | none => conts

/-- One step. `none` when the step cannot happen in `w`: there is no `n`-th container,
its process is not running, or its supervising goroutine does not stand at the
statement named. A call of `RunContainer` or `KillContainer` can always happen. -/
def step (c : Codec) (r : Runtime) (w : World) : Action → Option World
  | Action.run env imageName cmdArgs =>
    some (RunContainer c r env w imageName cmdArgs).2
  | Action.exit n =>
    match w.conts[n]? with
    | some k =>
      if k.alive = true then
        some { w with
          conts := w.conts.set n { k with alive := false }
          log := w.log ++ [Event.exit n] }
      else none
    | none => none
  | Action.supWait n =>
    match w.conts[n]? with
    | some k =>
      if k.phase = Phase.waiting ∧ k.alive = false then
        some { w with
          running := w.running.markDone k.id k.pid
          conts := w.conts.set n { k with phase := Phase.unmounting }
          log := w.log ++ [Event.wait n] }
      else none
    | none => none
  | Action.supUmount n ok =>
    match w.conts[n]? with
    | some k =>
      if k.phase = Phase.unmounting then
        let conts1 := w.conts.set n { k with phase := Phase.removing }
        some { w with
          conts := if ok = true then unmountTop k.rootfs conts1 else conts1
          log := w.log ++ [Event.umount n] }
      else none
    | none => none
  | Action.supDelete n =>
    match w.conts[n]? with
    | some k =>
      if k.phase = Phase.removing then
        some { w with
          running := w.running.delete k.id
          conts := w.conts.set n { k with phase := Phase.finished }
          log := w.log ++ [Event.remove n] }
      else none
    | none => none
  | Action.kill id =>
    match KillContainer w.running id with
    | (none, t) =>
      some { w with running := t, log := w.log ++ [Event.signal id, Event.killRemove id] }
    | (some _, t) => some { w with running := t }

/-- Run a sequence of steps. -/
def exec (c : Codec) (r : Runtime) : List Action → World → Option World
  | [], w => some w
  | a :: rest, w =>
    match step c r w a with
    | some w1 => exec c r rest w1
    | none => none

/-- The world when the engine starts: an empty process table, nothing started. -/
def World.boot (fs : FS) : World := ⟨fs, [], [], []⟩

/-- File name usable as one path component: no separator, and not one of the
components that `filepath.Clean` rewrites. -/
def plainName (n : String) : Prop :=
  '/' ∉ n.data ∧ n ≠ "" ∧ n ≠ "." ∧ n ≠ ".."

instance (n : String) : Decidable (plainName n) :=
  inferInstanceAs (Decidable (_ ∧ _ ∧ _ ∧ _))

instance : IsTotal String nameLE := ⟨fun a b => le_total a.data b.data⟩

instance : IsTrans String nameLE := ⟨fun _ _ _ h1 h2 => le_trans h1 h2⟩

instance : IsAntisymm String nameLE := ⟨fun _ _ h1 h2 => String.ext (le_antisymm h1 h2)⟩

/-- Entry `k` of the file system is in order as far as the registry is concerned: if it
is an entry of the metadata directory `d`, then `d` is a directory, the entry name has
no separator, and the entry is a regular file `<id>.json` whose content decodes to a
record with that id (spec §3: one file per image, named by id). -/
def entryOK (c : Codec) (d : Path) (fs : FS) (k : Path) : Bool :=
  match childName d k with
  | none => true
  | some n =>
    decide (stat fs d = some Node.dir) && decide ('/' ∉ n.data) &&
    match ReadFile fs k with
    | some b => decide (n = (c.Unmarshal b).ID ++ ".json")
    | none => false

/-- Registry state: every entry of the metadata directory is in order. -/
def StoreOK (c : Codec) (r : LocalRegistry) (fs : FS) : Prop :=
  ∀ e ∈ fs, entryOK c r.metaDir fs e.1 = true

instance (c : Codec) (r : LocalRegistry) (fs : FS) : Decidable (StoreOK c r fs) :=
  inferInstanceAs (Decidable (∀ e ∈ fs, _))

/-- Bytes of an ASCII text. -/
def ascii (s : String) : Bytes :=
  s.data.map (fun ch => UInt8.ofNat ch.toNat)

/-- Finite excerpt of `encoding/json`: the listed records with their JSON texts.
A text outside the table decodes to the zero value. -/
def tableCodec (tbl : List (Image × String)) : Codec where
  Marshal img := ((tbl.find? (fun e => e.1 = img)).map (fun e => ascii e.2)).getD []
  decode b := ((tbl.find? (fun e => ascii e.2 = b)).map (fun e => e.1)).getD Image.zero

/-! ### Concrete inputs -/

/-- Registry of the engine: `NewServer("/tmp/mini-docker")`. -/
def engineRegistry : LocalRegistry := ⟨"/tmp/mini-docker/registry"⟩

/-- A metadata directory holding one empty file, `zz.json`. -/
def fsEmptyFile : FS :=
  [ (⟨true, ["tmp", "mini-docker", "registry", "images_meta", "zz.json"]⟩, Node.file []),
    (⟨true, ["tmp", "mini-docker", "registry", "images_meta"]⟩, Node.dir) ]


/-- A record whose id climbs out of the metadata directory. -/
def imgEscape : Image := ⟨"alpine", "../x", "/tmp/mini-docker/registry/images/1", 1, []⟩

/-- The JSON text of `imgEscape`. -/
def jsonEscape : String :=
  "\x7b\"name\":\"alpine\",\"id\":\"../x\",\"rootfs\":\"/tmp/mini-docker/registry/images/1\",\"created\":1,\"metadata\":null\x7d"

/-- A record as the builder makes them. -/
def imgA : Image := ⟨"alpine", "17", "/tmp/mini-docker/registry/images/17", 1, []⟩

/-- The JSON text of `imgA`. -/
def jsonA : String :=
  "\x7b\"name\":\"alpine\",\"id\":\"17\",\"rootfs\":\"/tmp/mini-docker/registry/images/17\",\"created\":1,\"metadata\":null\x7d"

/-- An older record stored under the same id as `imgA`. -/
def imgB : Image := ⟨"busybox", "17", "/tmp/mini-docker/registry/images/17", 0, []⟩

/-- The JSON text of `imgB`. -/
def jsonB : String :=
  "\x7b\"name\":\"busybox\",\"id\":\"17\",\"rootfs\":\"/tmp/mini-docker/registry/images/17\",\"created\":0,\"metadata\":null\x7d"

/-- A record with another id. -/
def imgC : Image := ⟨"debian", "42", "/tmp/mini-docker/registry/images/42", 2, []⟩

/-- The JSON text of `imgC`. -/
def jsonC : String :=
  "\x7b\"name\":\"debian\",\"id\":\"42\",\"rootfs\":\"/tmp/mini-docker/registry/images/42\",\"created\":2,\"metadata\":null\x7d"

/-- Codec knowing the records above. -/
def demoCodec : Codec :=
  tableCodec [(imgEscape, jsonEscape), (imgA, jsonA), (imgB, jsonB), (imgC, jsonC)]

/-- The metadata directory of the engine. -/
def engineMeta : List String := ["tmp", "mini-docker", "registry", "images_meta"]

/-- A registry holding `imgB` under `17.json` and `imgC` under `42.json`. -/
def fsStore : FS :=
  [ (⟨true, engineMeta ++ ["42.json"]⟩, Node.file (ascii jsonC)),
    (⟨true, engineMeta ++ ["17.json"]⟩, Node.file (ascii jsonB)),
    (⟨true, engineMeta⟩, Node.dir),
    (⟨true, ["tmp", "mini-docker", "registry"]⟩, Node.dir),
    (⟨true, ["tmp", "mini-docker"]⟩, Node.dir),
    (⟨true, ["tmp"]⟩, Node.dir),
    (⟨true, []⟩, Node.dir) ]


/-- A record stored with an empty `rootfs`. -/
def imgNoRoot : Image := ⟨"scratch", "5", "", 3, []⟩

/-- The JSON text of `imgNoRoot`. -/
def jsonNoRoot : String :=
  "\x7b\"name\":\"scratch\",\"id\":\"5\",\"rootfs\":\"\",\"created\":3,\"metadata\":null\x7d"

/-- Codec knowing `imgNoRoot` and `imgC`. -/
def codecNoRoot : Codec := tableCodec [(imgNoRoot, jsonNoRoot), (imgC, jsonC)]

/-- A registry holding `imgNoRoot` under `5.json`. -/
def fsNoRoot : FS :=
  [ (⟨true, engineMeta ++ ["5.json"]⟩, Node.file (ascii jsonNoRoot)),
    (⟨true, engineMeta⟩, Node.dir),
    (⟨true, ["tmp", "mini-docker", "registry"]⟩, Node.dir),
    (⟨true, ["tmp", "mini-docker"]⟩, Node.dir),
    (⟨true, ["tmp"]⟩, Node.dir),
    (⟨true, []⟩, Node.dir) ]

/-- Runtime of the engine: `NewRuntime(s.reg.StoragePath())`. -/
def engineRuntime : Runtime := (NewRuntime fsStore engineRegistry.base).1

/-- The world after `NewRuntime` on `fsStore`: nothing running. -/
def worldStore : World := ⟨(NewRuntime fsStore engineRegistry.base).2, [], [], []⟩

/-- The world after `NewRuntime` on `fsNoRoot`: nothing running. -/
def worldNoRoot : World := ⟨(NewRuntime fsNoRoot engineRegistry.base).2, [], [], []⟩

/-- An environment in which `mount` and `cmd.Start()` succeed. -/
def envOk : RunEnv := ⟨1700000000000000001, none, Except.ok 4242⟩

/-- A table whose only container has already been collected by `Wait`. -/
def tableDone : Table := [("1700000000000000001", ⟨4242, true⟩)]

/-- A table with two live containers. -/
def tableLive : Table := [("1700000000000000001", ⟨4242, false⟩), ("1700000000000000002", ⟨4243, false⟩)]

/-- The argument lists of the processes started, in order. -/
def startedArgs (log : List Event) : List (List String) :=
  log.filterMap (fun e => match e with
    | Event.start _ cmd => some cmd.Args
    | _ => none)


/-- The id `envOk` yields. -/
def demoId : String := "1700000000000000001"

/-- The clock gives two containers the same id; the first then runs to completion. -/
def repeatActs : List Action :=
  [Action.run envOk "busybox" [], Action.run envOk "debian" [], Action.exit 0,
    Action.supWait 0, Action.supUmount 0 true, Action.supDelete 0]

/-- An archive whose only entry is a regular file named `../evil`. -/
def tarEscape : TarStream := ⟨[⟨⟨"../evil", Typeflag.reg, 0o644⟩, [104, 105]⟩], none⟩

/-- Clock of the build. -/
def buildEnv : BuildEnv := ⟨1700000000000000007, 1700000000⟩

/-! ## Theorems -/

/-! ### Registry -/

theorem listImages_eq_map (c : Codec) (r : LocalRegistry) (fs : FS) :
    (ListImages c r fs).1 =
      (ReadDir fs r.metaDir).map
        (fun f => c.Unmarshal ((ReadFile fs (r.metaDir.join f)).getD [])) := by
  have key : ∀ (l : List String) (acc : List Image),
      l.foldl (listStep c fs r.metaDir) acc =
        acc ++ l.map (fun f => c.Unmarshal ((ReadFile fs (r.metaDir.join f)).getD [])) := by
    intro l
    induction l with
    | nil => intro acc; simp
    | cons f fs' ih => intro acc; simp [List.foldl, ih, listStep]
  simp [ListImages, key]

theorem scanByName_none (name : String) (l : List Image) :
    scanByName name l = none ↔ ∀ x ∈ l, x.Name ≠ name := by
  induction l with
  | nil => simp [scanByName]
  | cons a l ih =>
    by_cases h : a.Name = name
    · simp [scanByName, h]
    · simp [scanByName, h, ih]

theorem scanByName_some (name : String) (l : List Image) (img : Image) :
    scanByName name l = some img →
      ∃ pre post, l = pre ++ img :: post ∧ img.Name = name ∧ ∀ x ∈ pre, x.Name ≠ name := by
  induction l with
  | nil => simp [scanByName]
  | cons a l ih =>
    by_cases h : a.Name = name
    · intro hs
      simp [scanByName, h] at hs
      subst hs
      exact ⟨[], l, rfl, h, by simp⟩
    · intro hs
      simp [scanByName, h] at hs
      obtain ⟨pre, post, hl, hn, hp⟩ := ih hs
      refine ⟨a :: pre, post, by simp [hl], hn, ?_⟩
      intro x hx
      rcases List.mem_cons.1 hx with rfl | hx
      · exact h
      · exact hp x hx

theorem getImageByName_error (c : Codec) (r : LocalRegistry) (fs : FS) (name e : String)
    (h : GetImageByName c r fs name = Except.error e) : e = "image not found" := by
  cases hs : scanByName name (ListImages c r fs).1 with
  | none =>
    simp only [GetImageByName, hs, Except.error.injEq] at h
    exact h.symm
  | some img =>
    simp [GetImageByName, hs] at h

/-- C3: `GetImageByName(name)` is a linear scan of the result of `ListImages()`.
Either it returns, with a nil error, a listed record named `name` such that every
record listed before it has another name, or no listed record has that name and it
returns the error "image not found". -/
theorem getImageByName_first_match (c : Codec) (r : LocalRegistry) (fs : FS) (name : String) :
    (∃ img pre post, GetImageByName c r fs name = Except.ok img ∧
        (ListImages c r fs).1 = pre ++ img :: post ∧ img.Name = name ∧
        ∀ x ∈ pre, x.Name ≠ name) ∨
    (GetImageByName c r fs name = Except.error "image not found" ∧
        ∀ x ∈ (ListImages c r fs).1, x.Name ≠ name) := by
  cases hs : scanByName name (ListImages c r fs).1 with
  | none =>
    right
    exact ⟨by simp [GetImageByName, hs], (scanByName_none name _).1 hs⟩
  | some img =>
    left
    obtain ⟨pre, post, hl, hn, hp⟩ := scanByName_some name _ img hs
    exact ⟨img, pre, post, by simp [GetImageByName, hs], hl, hn, hp⟩

/-- C1: with one empty file in the metadata directory, `GetImageByName("")` returns the
zero-value `Image` with a nil error, although no stored record has the name `""`. -/
theorem getImageByName_empty_file_zero_value (c : Codec) :
    GetImageByName c engineRegistry fsEmptyFile "" = Except.ok Image.zero := by
  rfl

/-- C2: with one empty file in the metadata directory, `ListImages()` returns one
element, the zero-value `Image`, although the directory holds no decodable entry. -/
theorem listImages_empty_file_listed (c : Codec) :
    ListImages c engineRegistry fsEmptyFile = ([Image.zero], none) := by
  rfl

/-! ### Paths and the file system -/

theorem splitSep_plain (cs acc : List Char) (h : '/' ∉ cs) :
    splitSep acc cs = [String.mk (acc.reverse ++ cs)] := by
  induction cs generalizing acc with
  | nil => simp [splitSep]
  | cons c cs ih =>
    have hc : c ≠ '/' := by
      intro e
      exact h (by simp [e])
    have hcs : '/' ∉ cs := by
      intro e
      exact h (by simp [e])
    simp [splitSep, hc, ih (c :: acc) hcs]

theorem join_plain (p : Path) (n : String) (h : plainName n) :
    p.join n = ⟨p.rooted, p.comps ++ [n]⟩ := by
  obtain ⟨h1, h2, h3, h4⟩ := h
  simp [Path.join, cleanFrom, splitSep_plain _ _ h1, cleanStep, h2, h3, h4]

theorem plainName_json (id : String) (h : '/' ∉ (id ++ ".json").data) :
    plainName (id ++ ".json") := by
  have hlen : 5 ≤ (id ++ ".json").length := by
    have h5 : ".json".length = 5 := by decide
    rw [String.length_append, h5]
    exact Nat.le_add_left 5 _
  refine ⟨h, ?_, ?_, ?_⟩
  · intro e
    rw [e] at hlen
    exact absurd hlen (by decide)
  · intro e
    rw [e] at hlen
    exact absurd hlen (by decide)
  · intro e
    rw [e] at hlen
    exact absurd hlen (by decide)

theorem json_name_inj (a b : String) (h : a ++ ".json" = b ++ ".json") : a = b := by
  have := congrArg String.data h
  simp at this
  exact String.ext this

theorem childName_child (d : Path) (n : String) :
    childName d ⟨d.rooted, d.comps ++ [n]⟩ = some n := by
  simp [childName]

theorem childName_eq_some (d k : Path) (n : String) (h : childName d k = some n) :
    k = ⟨d.rooted, d.comps ++ [n]⟩ := by
  unfold childName at h
  split at h
  · rename_i hk
    obtain ⟨hr, hd⟩ := hk
    have := List.dropLast_append_getLast? n (by simpa using h)
    cases k
    simp_all
  · simp at h

theorem childName_prefix_none (d k : Path) (h : k.comps <+: d.comps) :
    childName d k = none := by
  cases hk : childName d k with
  | none => rfl
  | some n =>
    have := childName_eq_some d k n hk
    rw [this] at h
    have := h.length_le
    simp at this

theorem stat_cons (k : Path) (n : Node) (fs : FS) (p : Path) :
    stat ((k, n) :: fs) p = if k = p then some n else stat fs p := rfl

theorem stat_append_of_not_mem (added fs : FS) (p : Path) (h : ∀ e ∈ added, e.1 ≠ p) :
    stat (added ++ fs) p = stat fs p := by
  induction added with
  | nil => rfl
  | cons e added ih =>
    obtain ⟨k, n⟩ := e
    have hk : k ≠ p := h (k, n) (by simp)
    simp only [List.cons_append, stat_cons, hk, if_false]
    exact ih (fun e he => h e (by simp [he]))

theorem stat_append_dirs (added fs : FS) (p : Path) (hd : ∀ e ∈ added, e.2 = Node.dir)
    (h : stat fs p = some Node.dir) : stat (added ++ fs) p = some Node.dir := by
  induction added with
  | nil => exact h
  | cons e added ih =>
    obtain ⟨k, n⟩ := e
    have hn : n = Node.dir := hd (k, n) (by simp)
    simp only [List.cons_append, stat_cons]
    split
    · rw [hn]
    · exact ih (fun e he => hd e (by simp [he]))

theorem stat_append_none (added fs : FS) (p : Path) (h : stat (added ++ fs) p = none) :
    stat fs p = none := by
  induction added with
  | nil => exact h
  | cons e added ih =>
    obtain ⟨k, n⟩ := e
    simp only [List.cons_append, stat_cons] at h
    split at h
    · simp at h
    · exact ih h

theorem ensureDir_spec (fs : FS) (p : Path) :
    ∃ added, (ensureDir fs p).1 = added ++ fs ∧
      ∀ e ∈ added, e.2 = Node.dir ∧ e.1 = p ∧ stat fs e.1 = none := by
  unfold ensureDir
  cases h : stat fs p with
  | none => exact ⟨[(p, Node.dir)], rfl, by simp [h]⟩
  | some n =>
    cases n with
    | dir => exact ⟨[], rfl, by simp⟩
    | file b => exact ⟨[], rfl, by simp⟩

/-- What `os.MkdirAll` adds: directories only, each at a prefix of the requested path
that was unbound before. -/
theorem mkdirWalk_spec (rooted : Bool) (rest pre : List String) (fs : FS) :
    ∃ added, (mkdirWalk rooted pre rest fs).1 = added ++ fs ∧
      ∀ e ∈ added, e.2 = Node.dir ∧ e.1.rooted = rooted ∧ e.1.comps <+: pre ++ rest ∧
        stat fs e.1 = none := by
  induction rest generalizing pre fs with
  | nil =>
    obtain ⟨added, h1, h2⟩ := ensureDir_spec fs ⟨rooted, pre⟩
    refine ⟨added, by simpa [mkdirWalk] using h1, ?_⟩
    intro e he
    obtain ⟨a, b, c⟩ := h2 e he
    refine ⟨a, by rw [b], by rw [b]; simp, c⟩
  | cons c cs ih =>
    obtain ⟨added, h1, h2⟩ := ensureDir_spec fs ⟨rooted, pre⟩
    unfold mkdirWalk
    cases hres : ensureDir fs ⟨rooted, pre⟩ with
    | mk fs1 err =>
      rw [hres] at h1
      simp only at h1
      have hadd : ∀ e ∈ added, e.2 = Node.dir ∧ e.1.rooted = rooted ∧
          e.1.comps <+: pre ++ c :: cs ∧ stat fs e.1 = none := by
        intro e he
        obtain ⟨a, b, d⟩ := h2 e he
        refine ⟨a, by rw [b], ?_, d⟩
        rw [b]
        exact List.prefix_append _ _
      cases err with
      | some e => exact ⟨added, h1, hadd⟩
      | none =>
        obtain ⟨added2, h3, h4⟩ := ih (pre ++ [c]) fs1
        refine ⟨added2 ++ added, ?_, ?_⟩
        · simp only
          rw [h3, h1, List.append_assoc]
        · intro e he
          rcases List.mem_append.1 he with he | he
          · obtain ⟨a, b, d, f⟩ := h4 e he
            refine ⟨a, b, by simpa using d, ?_⟩
            rw [h1] at f
            exact stat_append_none _ _ _ f
          · exact hadd e he

theorem mkdirAll_spec (fs : FS) (p : Path) :
    ∃ added, (MkdirAll fs p).1 = added ++ fs ∧
      ∀ e ∈ added, e.2 = Node.dir ∧ e.1.rooted = p.rooted ∧ e.1.comps <+: p.comps ∧
        stat fs e.1 = none := by
  simpa [MkdirAll] using mkdirWalk_spec p.rooted p.comps [] fs

/-! ### `PushImage` followed by `ListImages` -/

theorem entryOK_facts (c : Codec) (d : Path) (fs : FS) (k : Path) (n : String)
    (hok : entryOK c d fs k = true) (hn : childName d k = some n) :
    stat fs d = some Node.dir ∧ '/' ∉ n.data ∧
      ∃ b, ReadFile fs k = some b ∧ n = (c.Unmarshal b).ID ++ ".json" := by
  unfold entryOK at hok
  rw [hn] at hok
  simp only [Bool.and_eq_true, decide_eq_true_eq] at hok
  obtain ⟨⟨h1, h2⟩, h3⟩ := hok
  refine ⟨h1, h2, ?_⟩
  cases hb : ReadFile fs k with
  | none => simp [hb] at h3
  | some b =>
    rw [hb] at h3
    exact ⟨b, rfl, by simpa using h3⟩

theorem storeOK_entry (c : Codec) (r : LocalRegistry) (fs : FS) (n : String)
    (hs : StoreOK c r fs) (hn : n ∈ fs.filterMap (fun e => childName r.metaDir e.1)) :
    stat fs r.metaDir = some Node.dir ∧ plainName n ∧
      ∃ b, ReadFile fs ⟨r.metaDir.rooted, r.metaDir.comps ++ [n]⟩ = some b ∧
        n = (c.Unmarshal b).ID ++ ".json" := by
  obtain ⟨e, he, hc⟩ := List.mem_filterMap.1 hn
  obtain ⟨h1, h2, b, h3, h4⟩ := entryOK_facts c r.metaDir fs e.1 n (hs e he) hc
  have hk := childName_eq_some _ _ _ hc
  refine ⟨h1, ?_, b, by rw [← hk]; exact h3, h4⟩
  rw [h4] at h2 ⊢
  exact plainName_json _ h2

theorem readDir_storeOK (c : Codec) (r : LocalRegistry) (fs : FS) (hs : StoreOK c r fs) :
    ReadDir fs r.metaDir =
      ((fs.filterMap (fun e => childName r.metaDir e.1)).dedup).insertionSort nameLE := by
  cases hraw : fs.filterMap (fun e => childName r.metaDir e.1) with
  | nil =>
    unfold ReadDir
    rw [hraw]
    split <;> rfl
  | cons n rest =>
    have hn : n ∈ fs.filterMap (fun e => childName r.metaDir e.1) := by simp [hraw]
    obtain ⟨h1, -⟩ := storeOK_entry c r fs n hs hn
    unfold ReadDir
    rw [h1, hraw]

theorem filter_eq_singleton {α : Type} (p : α → Bool) (a : α) (l : List α) (hnd : l.Nodup)
    (ha : a ∈ l) (hp : p a = true) (hu : ∀ x ∈ l, p x = true → x = a) :
    l.filter p = [a] := by
  induction l with
  | nil => simp at ha
  | cons x l ih =>
    have hnd2 := List.nodup_cons.1 hnd
    by_cases hx : x = a
    · subst hx
      have : l.filter p = [] := by
        apply List.filter_eq_nil_iff.2
        intro y hy hpy
        have := hu y (by simp [hy]) hpy
        subst this
        exact hnd2.1 hy
      simp [List.filter_cons, hp, this]
    · have hpx : p x = false := by
        cases hpx : p x with
        | false => rfl
        | true => exact absurd (hu x (by simp) hpx) hx
      have ha2 : a ∈ l := by
        rcases List.mem_cons.1 ha with h | h
        · exact absurd h.symm hx
        · exact h
      simp only [List.filter_cons, hpx]
      exact ih hnd2.2 ha2 (fun y hy => hu y (by simp [hy]))

theorem sorted_names_eq (l1 l2 : List String) (h1 : l1.Sorted nameLE) (h2 : l2.Sorted nameLE)
    (n1 : l1.Nodup) (n2 : l2.Nodup) (hm : ∀ a, a ∈ l1 ↔ a ∈ l2) : l1 = l2 :=
  List.eq_of_perm_of_sorted ((List.perm_ext_iff_of_nodup n1 n2).2 hm) h1 h2

theorem pushImage_ok_shape (c : Codec) (r : LocalRegistry) (fs fs2 : FS) (img : Image)
    (hid : '/' ∉ img.ID.data) (hpush : PushImage c r fs img = (fs2, none)) :
    fs2 = (⟨r.metaDir.rooted, r.metaDir.comps ++ [img.ID ++ ".json"]⟩, Node.file (c.Marshal img))
        :: (MkdirAll fs r.metaDir).1 ∧
      stat (MkdirAll fs r.metaDir).1 r.metaDir = some Node.dir := by
  have hplain : plainName (img.ID ++ ".json") := by
    apply plainName_json
    simp [String.data_append, hid]
  unfold PushImage at hpush
  simp only [join_plain _ _ hplain] at hpush
  unfold WriteFile at hpush
  have hpar : (Path.parent ⟨r.metaDir.rooted, r.metaDir.comps ++ [img.ID ++ ".json"]⟩) =
      r.metaDir := by
    simp [Path.parent]
  rw [hpar] at hpush
  split at hpush
  · rename_i hd
    split at hpush
    · simp at hpush
    · simp only [Prod.mk.injEq, and_true] at hpush
      exact ⟨hpush.symm, hd⟩
  · simp at hpush

theorem child_ne_of_prefix (d k : Path) (n : String) (h : k.comps <+: d.comps) :
    k ≠ ⟨d.rooted, d.comps ++ [n]⟩ := by
  intro e
  rw [e] at h
  have := h.length_le
  simp at this

theorem readFile_cons_ne (k : Path) (nd : Node) (fs : FS) (p : Path) (h : k ≠ p) :
    ReadFile ((k, nd) :: fs) p = ReadFile fs p := by
  simp [ReadFile, stat_cons, h]

theorem readFile_cons_self (k : Path) (b : Bytes) (fs : FS) :
    ReadFile ((k, Node.file b) :: fs) k = some b := by
  simp [ReadFile, stat_cons]

theorem readFile_append_of_not_mem (added fs : FS) (p : Path) (h : ∀ e ∈ added, e.1 ≠ p) :
    ReadFile (added ++ fs) p = ReadFile fs p := by
  simp [ReadFile, stat_append_of_not_mem added fs p h]

/-- The directory listing and the file contents seen by `ListImages` after a successful
`PushImage` of a record whose id has no separator. -/
theorem pushImage_listing (c : Codec) (r : LocalRegistry) (fs fs2 : FS) (img : Image)
    (hs : StoreOK c r fs) (hid : '/' ∉ img.ID.data)
    (hpush : PushImage c r fs img = (fs2, none)) :
    ReadDir fs2 r.metaDir =
        (((img.ID ++ ".json") :: fs.filterMap (fun e => childName r.metaDir e.1)).dedup).insertionSort
          nameLE ∧
      ReadFile fs2 (r.metaDir.join (img.ID ++ ".json")) = some (c.Marshal img) ∧
      ∀ n ∈ fs.filterMap (fun e => childName r.metaDir e.1), n ≠ img.ID ++ ".json" →
        ReadFile fs2 (r.metaDir.join n) = ReadFile fs (r.metaDir.join n) := by
  obtain ⟨hfs2, hdir⟩ := pushImage_ok_shape c r fs fs2 img hid hpush
  obtain ⟨added, hadd, hprops⟩ := mkdirAll_spec fs r.metaDir
  rw [hadd] at hfs2 hdir
  have hplain : plainName (img.ID ++ ".json") := by
    apply plainName_json
    simp [String.data_append, hid]
  have hraw_added : added.filterMap (fun e => childName r.metaDir e.1) = [] := by
    apply List.filterMap_eq_nil_iff.2
    intro e he
    exact childName_prefix_none _ _ (hprops e he).2.2.1
  refine ⟨?_, ?_, ?_⟩
  · unfold ReadDir
    have hstat : stat fs2 r.metaDir = some Node.dir := by
      rw [hfs2, stat_cons, if_neg]
      · exact hdir
      · intro e
        have := congrArg (fun p => p.comps.length) e
        simp at this
    rw [hstat, hfs2]
    simp [List.filterMap_cons, childName_child, List.filterMap_append, hraw_added]
  · rw [join_plain _ _ hplain, hfs2]
    exact readFile_cons_self _ _ _
  · intro n hn hne
    obtain ⟨-, hpn, -⟩ := storeOK_entry c r fs n hs hn
    rw [join_plain _ _ hpn, hfs2, readFile_cons_ne]
    · apply readFile_append_of_not_mem
      intro e he
      exact child_ne_of_prefix _ _ _ (hprops e he).2.2.1
    · intro e
      have : img.ID ++ ".json" = n := by
        have := congrArg Path.comps e
        simpa using this
      exact hne this.symm

theorem storeOK_nil (c : Codec) (r : LocalRegistry) : StoreOK c r [] := by
  intro e he
  simp at he

/-- A successful `PushImage` of a record whose id has no separator and whose JSON text
decodes back to it leads from a registry state to a registry state. -/
theorem storeOK_pushImage (c : Codec) (r : LocalRegistry) (fs fs2 : FS) (img : Image)
    (hs : StoreOK c r fs) (hid : '/' ∉ img.ID.data)
    (hrt : c.Unmarshal (c.Marshal img) = img)
    (hpush : PushImage c r fs img = (fs2, none)) : StoreOK c r fs2 := by
  obtain ⟨hfs2, hdir⟩ := pushImage_ok_shape c r fs fs2 img hid hpush
  obtain ⟨added, hadd, hprops⟩ := mkdirAll_spec fs r.metaDir
  rw [hadd] at hfs2 hdir
  have hslash : '/' ∉ (img.ID ++ ".json").data := by
    simp [String.data_append, hid]
  have hstat2 : stat fs2 r.metaDir = some Node.dir := by
    rw [hfs2, stat_cons, if_neg]
    · exact hdir
    · intro e
      have := congrArg (fun p => p.comps.length) e
      simp at this
  have hnew : entryOK c r.metaDir fs2 ⟨r.metaDir.rooted, r.metaDir.comps ++ [img.ID ++ ".json"]⟩
      = true := by
    have hread : ReadFile fs2 ⟨r.metaDir.rooted, r.metaDir.comps ++ [img.ID ++ ".json"]⟩ =
        some (c.Marshal img) := by
      rw [hfs2]
      exact readFile_cons_self _ _ _
    simp only [entryOK, childName_child, hstat2, hread, hrt, decide_True, Bool.and_self,
      Bool.true_and, Bool.and_true, decide_eq_true_eq]
    exact hslash
  intro e he
  rw [hfs2] at he
  rcases List.mem_cons.1 he with he | he
  · rw [he]
    exact hnew
  · cases hchild : childName r.metaDir e.1 with
    | none => simp [entryOK, hchild]
    | some n =>
      have hk := childName_eq_some _ _ _ hchild
      by_cases hn : n = img.ID ++ ".json"
      · rw [hk, hn]
        exact hnew
      · rcases List.mem_append.1 he with he | he
        · have := childName_prefix_none r.metaDir e.1 (hprops e he).2.2.1
          rw [this] at hchild
          simp at hchild
        · obtain ⟨_, h2, b, h3, h4⟩ := entryOK_facts c r.metaDir fs e.1 n (hs e he) hchild
          have hread : ReadFile fs2 e.1 = some b := by
            rw [hfs2, readFile_cons_ne, readFile_append_of_not_mem, h3]
            · intro a ha
              rw [hk]
              exact child_ne_of_prefix _ _ _ (hprops a ha).2.2.1
            · rw [hk]
              intro e2
              have := congrArg Path.comps e2
              simp only [List.append_cancel_left_eq, List.cons.injEq, and_true] at this
              exact hn this.symm
          simp only [entryOK, hchild, hstat2, hread, decide_True, Bool.true_and,
            Bool.and_eq_true, decide_eq_true_eq]
          exact ⟨h2, h4⟩

/-- C4 (as amended): in a registry state, where every entry of `images_meta` is a file
`<id>.json` holding the record with that id, after `PushImage(img)` succeeds for a
record whose id contains no `/` and whose JSON text decodes back to it, the storage is
again a registry state, `ListImages()` contains exactly one record with that id and it
equals `img` field for field, also when a record with that id was stored before, and
the records with every other id are listed exactly as before, in the same order. -/
theorem pushImage_then_listImages (c : Codec) (r : LocalRegistry) (fs fs2 : FS) (img : Image)
    (hs : StoreOK c r fs) (hid : '/' ∉ img.ID.data)
    (hrt : c.Unmarshal (c.Marshal img) = img)
    (hpush : PushImage c r fs img = (fs2, none)) :
    StoreOK c r fs2 ∧
    (ListImages c r fs2).1.filter (fun x => decide (x.ID = img.ID)) = [img] ∧
    (ListImages c r fs2).1.filter (fun x => decide (x.ID ≠ img.ID)) =
      (ListImages c r fs).1.filter (fun x => decide (x.ID ≠ img.ID)) := by
  refine ⟨storeOK_pushImage c r fs fs2 img hs hid hrt hpush, ?_⟩
  obtain ⟨hdir2, hself, hother⟩ := pushImage_listing c r fs fs2 img hs hid hpush
  have hdir := readDir_storeOK c r fs hs
  rw [listImages_eq_map, listImages_eq_map, hdir2, hdir]
  generalize hraw : fs.filterMap (fun e => childName r.metaDir e.1) = raw at *
  have hmem2 : ∀ n, n ∈ (((img.ID ++ ".json") :: raw).dedup).insertionSort nameLE ↔
      n = img.ID ++ ".json" ∨ n ∈ raw := by
    intro n
    simp [List.mem_insertionSort, List.mem_dedup]
  have hmem : ∀ n, n ∈ (raw.dedup).insertionSort nameLE ↔ n ∈ raw := by
    intro n
    simp [List.mem_insertionSort, List.mem_dedup]
  have hnd2 : ((((img.ID ++ ".json") :: raw).dedup).insertionSort nameLE).Nodup :=
    (List.perm_insertionSort nameLE _).nodup_iff.2 (List.nodup_dedup _)
  have hnd : ((raw.dedup).insertionSort nameLE).Nodup :=
    (List.perm_insertionSort nameLE _).nodup_iff.2 (List.nodup_dedup _)
  have hid_of : ∀ n ∈ raw,
      (c.Unmarshal ((ReadFile fs (r.metaDir.join n)).getD [])).ID ++ ".json" = n := by
    intro n hn
    obtain ⟨-, hpn, b, hb, hnb⟩ := storeOK_entry c r fs n hs (by rw [hraw]; exact hn)
    rw [join_plain _ _ hpn, hb]
    simpa using hnb.symm
  have hg2_self : c.Unmarshal ((ReadFile fs2 (r.metaDir.join (img.ID ++ ".json"))).getD []) =
      img := by
    rw [hself]
    simpa using hrt
  have hg2_other : ∀ n ∈ raw, n ≠ img.ID ++ ".json" →
      c.Unmarshal ((ReadFile fs2 (r.metaDir.join n)).getD []) =
        c.Unmarshal ((ReadFile fs (r.metaDir.join n)).getD []) := by
    intro n hn hne
    rw [hother n hn hne]
  constructor
  · rw [List.filter_map]
    rw [filter_eq_singleton _ (img.ID ++ ".json") _ hnd2 ((hmem2 _).2 (Or.inl rfl))]
    · simp [hg2_self]
    · simp [hg2_self]
    · intro n hn hp
      rcases (hmem2 n).1 hn with h | h
      · exact h
      · by_contra hne
        have h1 := hid_of n h
        rw [← hg2_other n h hne] at h1
        simp only [Function.comp, decide_eq_true_eq] at hp
        rw [hp] at h1
        exact hne h1.symm
  · rw [List.filter_map, List.filter_map]
    have e2 : List.filter
        ((fun x => decide (x.ID ≠ img.ID)) ∘
          fun f => c.Unmarshal ((ReadFile fs2 (r.metaDir.join f)).getD []))
        ((((img.ID ++ ".json") :: raw).dedup).insertionSort nameLE) =
        List.filter (fun n => decide (n ≠ img.ID ++ ".json"))
          ((((img.ID ++ ".json") :: raw).dedup).insertionSort nameLE) := by
      apply List.filter_congr
      intro n hn
      rcases (hmem2 n).1 hn with h | h
      · subst h
        simp [hg2_self]
      · by_cases hne : n = img.ID ++ ".json"
        · subst hne
          simp [hg2_self]
        · have h1 := hid_of n h
          rw [← hg2_other n h hne] at h1
          have : (c.Unmarshal ((ReadFile fs2 (r.metaDir.join n)).getD [])).ID ≠ img.ID := by
            intro e
            rw [e] at h1
            exact hne h1.symm
          simp [this, hne]
    have e1 : List.filter
        ((fun x => decide (x.ID ≠ img.ID)) ∘
          fun f => c.Unmarshal ((ReadFile fs (r.metaDir.join f)).getD []))
        ((raw.dedup).insertionSort nameLE) =
        List.filter (fun n => decide (n ≠ img.ID ++ ".json"))
          ((raw.dedup).insertionSort nameLE) := by
      apply List.filter_congr
      intro n hn
      have h := (hmem n).1 hn
      have h1 := hid_of n h
      by_cases hne : n = img.ID ++ ".json"
      · have : (c.Unmarshal ((ReadFile fs (r.metaDir.join n)).getD [])).ID = img.ID := by
          apply json_name_inj
          rw [h1, hne]
        have l1 : decide ((c.Unmarshal ((ReadFile fs (r.metaDir.join n)).getD [])).ID ≠ img.ID) =
            false := by simp [this]
        have l2 : decide (n ≠ img.ID ++ ".json") = false := by simp [hne]
        simp only [Function.comp]
        rw [l1, l2]
      · have : (c.Unmarshal ((ReadFile fs (r.metaDir.join n)).getD [])).ID ≠ img.ID := by
          intro e
          rw [e] at h1
          exact hne h1.symm
        simp [this, hne]
    rw [e2, e1]
    have hl : List.filter (fun n => decide (n ≠ img.ID ++ ".json"))
          ((((img.ID ++ ".json") :: raw).dedup).insertionSort nameLE) =
        List.filter (fun n => decide (n ≠ img.ID ++ ".json"))
          ((raw.dedup).insertionSort nameLE) := by
      apply sorted_names_eq
      · exact (List.sorted_insertionSort nameLE _).filter _
      · exact (List.sorted_insertionSort nameLE _).filter _
      · exact hnd2.filter _
      · exact hnd.filter _
      · intro a
        simp only [List.mem_filter, hmem2, hmem, decide_eq_true_eq]
        constructor
        · rintro ⟨h | h, hne⟩
          · exact absurd h hne
          · exact ⟨h, hne⟩
        · rintro ⟨h, hne⟩
          exact ⟨Or.inr h, hne⟩
    rw [hl]
    apply List.map_congr_left
    intro n hn
    obtain ⟨hn1, hn2⟩ := List.mem_filter.1 hn
    exact hg2_other n ((hmem n).1 hn1) (by simpa using hn2)

/-- Witness of `pushImage_then_listImages`: pushing `imgA` over the stored `imgB`. -/
theorem pushImage_then_listImages_witness :
    StoreOK demoCodec engineRegistry fsStore ∧ '/' ∉ imgA.ID.data ∧
    demoCodec.Unmarshal (demoCodec.Marshal imgA) = imgA ∧
    (ListImages demoCodec engineRegistry fsStore).1 = [imgB, imgC] ∧
    (StoreOK demoCodec engineRegistry (PushImage demoCodec engineRegistry fsStore imgA).1 ∧
      (ListImages demoCodec engineRegistry
        (PushImage demoCodec engineRegistry fsStore imgA).1).1.filter
          (fun x => decide (x.ID = imgA.ID)) = [imgA] ∧
      (ListImages demoCodec engineRegistry
        (PushImage demoCodec engineRegistry fsStore imgA).1).1.filter
          (fun x => decide (x.ID ≠ imgA.ID)) =
        (ListImages demoCodec engineRegistry fsStore).1.filter
          (fun x => decide (x.ID ≠ imgA.ID))) :=
  ⟨by decide, by decide, by decide, by decide,
    pushImage_then_listImages demoCodec engineRegistry fsStore _ imgA
      (by decide) (by decide) (by decide) (by decide)⟩

/-- C4 (counterexample): on an empty storage, `PushImage` of a record whose id is `../x`
succeeds and its JSON text decodes back to it, yet it is written to `registry/x.json`,
outside `images_meta`, and `ListImages()` afterwards contains no record at all. -/
theorem pushImage_escaping_id_not_listed :
    (PushImage demoCodec engineRegistry [] imgEscape).2 = none ∧
    demoCodec.Unmarshal (demoCodec.Marshal imgEscape) = imgEscape ∧
    ReadFile (PushImage demoCodec engineRegistry [] imgEscape).1
      ⟨true, ["tmp", "mini-docker", "registry", "x.json"]⟩ = some (ascii jsonEscape) ∧
    (ListImages demoCodec engineRegistry
      (PushImage demoCodec engineRegistry [] imgEscape).1).1 = [] := by
  decide

/-! ### Runtime: name resolution -/

theorem resolveLoop_eq_empty (c : Codec) (fs : FS) (metaDir : Path) (imageName : String)
    (l : List String)
    (h : ∀ m ∈ l, (ReadFile fs (metaDir.join m)).getD [] ≠ [] →
      (c.Unmarshal ((ReadFile fs (metaDir.join m)).getD [])).Name ≠ imageName) :
    resolveLoop c fs metaDir imageName l = "" := by
  induction l with
  | nil => rfl
  | cons m rest ih =>
    have ih2 := ih (fun m hm => h m (by simp [hm]))
    unfold resolveLoop
    by_cases hb : (ReadFile fs (metaDir.join m)).getD [] = []
    · simp [hb, ih2]
    · have := h m (by simp) hb
      simp [hb, this, ih2]

/-- C5: when no non-empty file of `images_meta` decodes to a record named `imageName`,
`RunContainer(imageName, cmdArgs)` returns the error "image not found" and leaves the
world as it was: the same file system (no directory created), the same process table,
no `mount` run and no process started. -/
theorem runContainer_unknown_image (c : Codec) (r : Runtime) (env : RunEnv) (w : World)
    (imageName : String) (cmdArgs : List String)
    (h : ∀ m ∈ ReadDir w.fs (Join [r.storage, "images_meta"]),
      (ReadFile w.fs ((Join [r.storage, "images_meta"]).join m)).getD [] ≠ [] →
      (c.Unmarshal ((ReadFile w.fs ((Join [r.storage, "images_meta"]).join m)).getD [])).Name
        ≠ imageName) :
    RunContainer c r env w imageName cmdArgs =
      (Except.error (RtError.imageNotFound imageName), w) := by
  have hres : resolveImage c r w.fs imageName = "" :=
    resolveLoop_eq_empty c w.fs _ imageName _ h
  simp [RunContainer, hres]

/-- Witness of `runContainer_unknown_image`: the name `nginx` on a registry holding
`busybox` and `debian`. -/
theorem runContainer_unknown_image_witness :
    (∀ m ∈ ReadDir worldStore.fs (Join [engineRuntime.storage, "images_meta"]),
      (ReadFile worldStore.fs ((Join [engineRuntime.storage, "images_meta"]).join m)).getD [] ≠ [] →
      (demoCodec.Unmarshal
        ((ReadFile worldStore.fs ((Join [engineRuntime.storage, "images_meta"]).join m)).getD [])).Name
        ≠ "nginx") ∧
    RunContainer demoCodec engineRuntime envOk worldStore "nginx" ["sh"] =
      (Except.error (RtError.imageNotFound "nginx"), worldStore) :=
  ⟨by decide, runContainer_unknown_image demoCodec engineRuntime envOk worldStore "nginx" ["sh"]
    (by decide)⟩

theorem resolveLoop_eq_scan (c : Codec) (fs : FS) (metaDir : Path) (name : String)
    (hname : name ≠ "") (l : List String) :
    resolveLoop c fs metaDir name l =
      match scanByName name
          (l.map (fun f => c.Unmarshal ((ReadFile fs (metaDir.join f)).getD []))) with
      | some img => img.Rootfs
      | none => "" := by
  induction l with
  | nil => rfl
  | cons m rest ih =>
    unfold resolveLoop
    simp only [List.map_cons, scanByName]
    by_cases hb : (ReadFile fs (metaDir.join m)).getD [] = []
    · have hz : (c.Unmarshal []).Name ≠ name := by
        simp only [Codec.Unmarshal, if_true, Image.zero]
        exact fun e => hname e.symm
      rw [hb]
      simp only [if_true, hz, if_false]
      exact ih
    · by_cases hn : (c.Unmarshal ((ReadFile fs (metaDir.join m)).getD [])).Name = name
      · simp [hb, hn]
      · simp only [hb, hn, if_false]
        exact ih

theorem resolveImage_eq_getImageByName (c : Codec) (r : Runtime) (fs : FS) (name : String)
    (hname : name ≠ "") :
    resolveImage c r fs name =
      match GetImageByName c ⟨r.storage⟩ fs name with
      | Except.ok img => img.Rootfs
      | Except.error _ => "" := by
  unfold resolveImage GetImageByName
  rw [listImages_eq_map]
  simp only [LocalRegistry.metaDir]
  rw [resolveLoop_eq_scan c fs _ name hname]
  cases scanByName name _ <;> rfl

theorem runContainer_not_found_iff (c : Codec) (r : Runtime) (env : RunEnv) (w : World)
    (imageName : String) (cmdArgs : List String) :
    (RunContainer c r env w imageName cmdArgs).1 = Except.error (RtError.imageNotFound imageName)
      ↔ resolveImage c r w.fs imageName = "" := by
  unfold RunContainer
  by_cases h : resolveImage c r w.fs imageName = ""
  · simp [h]
  · simp only [h, if_false, false_iff]
    cases env.mountErr with
    | some eo => simp
    | none =>
      cases env.startRes with
      | error e => simp
      | ok pid => simp

/-- C6 (as amended): for a non-empty image name, on the same `images_meta` directory,
`RunContainer` resolves the name to a non-empty root `root` exactly when
`GetImageByName` returns a record whose `Rootfs` is `root`, and `RunContainer` reports
"image not found" exactly when `GetImageByName` returns its not-found error or returns
a record whose `Rootfs` is empty. -/
theorem runContainer_resolution_agrees (c : Codec) (r : Runtime) (env : RunEnv) (w : World)
    (name : String) (cmdArgs : List String) (hname : name ≠ "") :
    (∀ root, root ≠ "" →
      (resolveImage c r w.fs name = root ↔
        ∃ img, GetImageByName c ⟨r.storage⟩ w.fs name = Except.ok img ∧ img.Rootfs = root)) ∧
    ((RunContainer c r env w name cmdArgs).1 = Except.error (RtError.imageNotFound name) ↔
      (GetImageByName c ⟨r.storage⟩ w.fs name = Except.error "image not found" ∨
        ∃ img, GetImageByName c ⟨r.storage⟩ w.fs name = Except.ok img ∧ img.Rootfs = "")) := by
  have key := resolveImage_eq_getImageByName c r w.fs name hname
  rw [runContainer_not_found_iff]
  cases hget : GetImageByName c ⟨r.storage⟩ w.fs name with
  | ok img =>
    rw [hget] at key
    simp only at key
    rw [key]
    constructor
    · intro root _
      simp
    · simp
  | error e =>
    have he := getImageByName_error c ⟨r.storage⟩ w.fs name e hget
    subst he
    rw [hget] at key
    simp only at key
    rw [key]
    constructor
    · intro root hroot
      simp [Ne.symm hroot]
    · simp

/-- Witness of `runContainer_resolution_agrees`: the name `busybox` on `fsStore`. -/
theorem runContainer_resolution_agrees_witness :
    "busybox" ≠ "" ∧
    resolveImage demoCodec engineRuntime worldStore.fs "busybox" = imgB.Rootfs ∧
    ((∀ root, root ≠ "" →
      (resolveImage demoCodec engineRuntime worldStore.fs "busybox" = root ↔
        ∃ img, GetImageByName demoCodec ⟨engineRuntime.storage⟩ worldStore.fs "busybox" =
          Except.ok img ∧ img.Rootfs = root)) ∧
    ((RunContainer demoCodec engineRuntime envOk worldStore "busybox" []).1 =
        Except.error (RtError.imageNotFound "busybox") ↔
      (GetImageByName demoCodec ⟨engineRuntime.storage⟩ worldStore.fs "busybox" =
          Except.error "image not found" ∨
        ∃ img, GetImageByName demoCodec ⟨engineRuntime.storage⟩ worldStore.fs "busybox" =
          Except.ok img ∧ img.Rootfs = ""))) :=
  ⟨by decide, by decide,
    runContainer_resolution_agrees demoCodec engineRuntime envOk worldStore "busybox" []
      (by decide)⟩

/-- C6 (counterexample): with the record `imgNoRoot` (name `scratch`, empty `rootfs`)
stored, `GetImageByName("scratch")` returns that record with a nil error, while
`RunContainer("scratch", ...)` reports "image not found". -/
theorem runContainer_empty_rootfs_disagrees :
    GetImageByName codecNoRoot ⟨engineRuntime.storage⟩ worldNoRoot.fs "scratch" =
      Except.ok imgNoRoot ∧
    (RunContainer codecNoRoot engineRuntime envOk worldNoRoot "scratch" []).1 =
      Except.error (RtError.imageNotFound "scratch") := by
  decide

/-! ### Runtime: the command started -/

theorem containerCmd_args (cmdArgs : List String) (rootfs : Path) :
    (containerCmd cmdArgs rootfs).Args = [cmdArgs.headD "/bin/sh"] := by
  cases cmdArgs <;> rfl

/-- C8: for `cmdArgs = ["echo", "hello"]` on a resolvable image, with `mount` and
`cmd.Start()` succeeding, the one process `RunContainer` starts has argv `["echo"]`:
the arguments after the program name are dropped. -/
theorem runContainer_drops_arguments :
    (RunContainer demoCodec engineRuntime envOk worldStore "busybox" ["echo", "hello"]).1 =
      Except.ok "1700000000000000001" ∧
    startedArgs
      (RunContainer demoCodec engineRuntime envOk worldStore "busybox" ["echo", "hello"]).2.log =
      [["echo"]] := by
  decide

/-! ### Runtime: the process table -/

theorem table_get_delete_self (t : Table) (id : String) : (t.delete id).get id = none := by
  induction t with
  | nil => rfl
  | cons e t ih =>
    obtain ⟨k, p⟩ := e
    by_cases hk : k = id
    · simpa [Table.delete, hk] using ih
    · simpa [Table.delete, hk, Table.get] using ih

theorem table_get_delete_other (t : Table) (id other : String) (h : other ≠ id) :
    (t.delete id).get other = t.get other := by
  induction t with
  | nil => rfl
  | cons e t ih =>
    obtain ⟨k, p⟩ := e
    by_cases hk : k = id
    · have hko : k ≠ other := by
        rw [hk]
        exact Ne.symm h
      simpa [Table.delete, hk, Table.get, hko, Ne.symm h] using ih
    · by_cases hko : k = other
      · subst hko
        simp [Table.delete, hk, Table.get, List.filter_cons]
      · simpa [Table.delete, hk, Table.get, hko] using ih

theorem listRunning_eq_map (t : Table) :
    ListRunningContainers t = t.map (fun e => (e.1, e.2.Pid)) := by
  have key : ∀ (l : Table) (acc : List (String × Int)),
      l.foldl (fun res e => res ++ [(e.1, e.2.Pid)]) acc =
        acc ++ l.map (fun e => (e.1, e.2.Pid)) := by
    intro l
    induction l with
    | nil => intro acc; simp
    | cons e l ih => intro acc; simp [List.foldl, ih]
  simp [ListRunningContainers, key]

theorem listRunning_delete (t : Table) (id : String) :
    ∀ e ∈ ListRunningContainers (t.delete id), e.1 ≠ id := by
  intro e he
  rw [listRunning_eq_map] at he
  obtain ⟨x, hx, rfl⟩ := List.mem_map.1 he
  have := (List.mem_filter.1 hx).2
  simpa using this

/-- C7 (as amended): `KillContainer(id)` does one of three things. If `id` is in the
table and `Kill` on its process succeeds, it returns nil and leaves a table without
`id`, which `ListRunningContainers` no longer reports, every other entry unchanged, on
which a second `KillContainer(id)` returns "container not found". If `id` is in the
table and `Kill` fails (the process was already collected), it returns that error and
leaves the table unchanged. If `id` is absent it returns "container not found" and
leaves the table unchanged. -/
theorem killContainer_cases (t : Table) (id : String) :
    (∃ p, t.get id = some p ∧ p.Kill = none ∧
      (KillContainer t id).1 = none ∧
      (KillContainer t id).2.get id = none ∧
      (∀ e ∈ ListRunningContainers (KillContainer t id).2, e.1 ≠ id) ∧
      (∀ other, other ≠ id → (KillContainer t id).2.get other = t.get other) ∧
      KillContainer (KillContainer t id).2 id =
        (some RtError.containerNotFound, (KillContainer t id).2)) ∨
    (∃ p err, t.get id = some p ∧ p.Kill = some err ∧
      KillContainer t id = (some (RtError.killFailed err), t)) ∨
    (t.get id = none ∧ KillContainer t id = (some RtError.containerNotFound, t)) := by
  cases hg : t.get id with
  | none =>
    right
    right
    exact ⟨rfl, by simp [KillContainer, hg]⟩
  | some p =>
    cases hk : p.Kill with
    | some err =>
      right
      left
      exact ⟨p, err, rfl, hk, by simp [KillContainer, hg, hk]⟩
    | none =>
      left
      have hres : KillContainer t id = (none, t.delete id) := by
        simp [KillContainer, hg, hk]
      refine ⟨p, rfl, hk, ?_, ?_, ?_, ?_, ?_⟩
      · rw [hres]
      · rw [hres]
        exact table_get_delete_self t id
      · rw [hres]
        exact listRunning_delete t id
      · intro other ho
        rw [hres]
        exact table_get_delete_other t id other ho
      · rw [hres]
        simp [KillContainer, table_get_delete_self]

/-- C7 (counterexample): the id is in the table, but its process was already collected
by `Wait`; `KillContainer` returns the error of `Kill`, not nil, and the table still
contains the id. -/
theorem killContainer_finished_process_fails :
    tableDone.get "1700000000000000001" = some ⟨4242, true⟩ ∧
    KillContainer tableDone "1700000000000000001" =
      (some (RtError.killFailed "os: process already finished"), tableDone) ∧
    ListRunningContainers (KillContainer tableDone "1700000000000000001").2 =
      [("1700000000000000001", 4242)] := by
  decide

/-! ### Runtime: order of cleanup -/

/-- Why the last part of `cleanup_order` asks for distinct ids: when the clock repeats
an id, both containers share `workdir/<id>/rootfs` and one table key, so the cleanup of
the first unmounts the overlay of the second, whose process still runs, and deletes its
table entry. -/
theorem repeated_id_unmounts_running_container :
    (exec demoCodec engineRuntime repeatActs (World.boot worldStore.fs)).map
        (fun w => (w.running, w.conts.map (fun k => (k.id, k.alive, k.mounted, k.phase)))) =
      some ([], [(demoId, false, true, Phase.finished), (demoId, true, false, Phase.waiting)]) := by
  decide

theorem cleanFold_noDotDot (rooted : Bool) (cs stack : List String) (h : ".." ∉ cs) :
    cs.foldl (cleanStep rooted) stack =
      (cs.filter (fun c => decide (¬ (c = "" ∨ c = ".")))).reverse ++ stack := by
  induction cs generalizing stack with
  | nil => rfl
  | cons c cs ih =>
    have hc : c ≠ ".." := fun e => h (by simp [e])
    have hcs : ".." ∉ cs := fun e => h (by simp [e])
    simp only [List.foldl_cons]
    rw [ih _ hcs]
    by_cases hskip : c = "" ∨ c = "."
    · have hn : ¬ (¬ c = "" ∧ ¬ c = ".") := by tauto
      simp [cleanStep, hskip, List.filter_cons, hn]
    · have hk : ¬ c = "" ∧ ¬ c = "." := not_or.1 hskip
      simp [cleanStep, hskip, hc, List.filter_cons, hk]

/-- A name without a `..` component is joined to a path inside the directory. -/
theorem join_inside (d : Path) (name : String) (h : noDotDot name) :
    Path.inside d (d.join name) := by
  refine ⟨rfl, ?_⟩
  simp only [Path.join, cleanFrom]
  rw [cleanFold_noDotDot _ _ _ h]
  simp

theorem stat_mkdirAll_frame (fs : FS) (p q : Path)
    (h : stat (MkdirAll fs p).1 q ≠ stat fs q) : Path.above p q := by
  obtain ⟨added, hadd, hprops⟩ := mkdirAll_spec fs p
  rw [hadd] at h
  by_contra hq
  apply h
  apply stat_append_of_not_mem
  intro e he heq
  apply hq
  rw [← heq]
  exact ⟨(hprops e he).2.1, (hprops e he).2.2.1⟩

theorem stat_writeFile_frame (fs : FS) (p q : Path) (b : Bytes)
    (h : stat (WriteFile fs p b).1 q ≠ stat fs q) : q = p := by
  by_contra hq
  apply h
  unfold WriteFile
  split
  · split
    · rfl
    · simp [stat_cons, Ne.symm hq]
  · rfl

theorem above_parent (p q : Path) (h : Path.above p.parent q) : Path.above p q :=
  ⟨h.1, h.2.trans (List.dropLast_prefix _)⟩

theorem above_self (p : Path) : Path.above p p := ⟨rfl, List.prefix_refl _⟩

/-- Every path whose binding the extraction loop changes is the target of an entry or
an ancestor of one. -/
theorem extractLoop_frame (imgDir : Path) (entries : List TarEntry) (fs : FS) (q : Path)
    (h : stat (extractLoop imgDir entries fs).1 q ≠ stat fs q) :
    ∃ e ∈ entries, Path.above (imgDir.join e.h.Name) q := by
  induction entries generalizing fs with
  | nil => exact absurd rfl h
  | cons e rest ih =>
    unfold extractLoop at h
    cases htf : e.h.Typeflag with
    | dir =>
      simp only [htf] at h
      by_cases h1 : stat (MkdirAll fs (imgDir.join e.h.Name)).1 q = stat fs q
      · rw [← h1] at h
        obtain ⟨e2, he2, ha⟩ := ih _ h
        exact ⟨e2, by simp [he2], ha⟩
      · exact ⟨e, by simp, stat_mkdirAll_frame _ _ _ h1⟩
    | reg =>
      simp only [htf] at h
      by_cases h1 : stat (MkdirAll fs (imgDir.join e.h.Name).parent).1 q = stat fs q
      · rw [← h1] at h
        cases hw : WriteFile (MkdirAll fs (imgDir.join e.h.Name).parent).1
            (imgDir.join e.h.Name) e.data with
        | mk fs2 err =>
          have hfs2 : fs2 = (WriteFile (MkdirAll fs (imgDir.join e.h.Name).parent).1
              (imgDir.join e.h.Name) e.data).1 := by rw [hw]
          rw [hw] at h
          by_cases h2 : stat fs2 q = stat (MkdirAll fs (imgDir.join e.h.Name).parent).1 q
          · cases err with
            | some er => exact absurd h2 h
            | none =>
              simp only at h
              rw [← h2] at h
              obtain ⟨e2, he2, ha⟩ := ih _ h
              exact ⟨e2, by simp [he2], ha⟩
          · rw [hfs2] at h2
            have := stat_writeFile_frame _ _ _ _ h2
            rw [this]
            exact ⟨e, by simp, above_self _⟩
      · exact ⟨e, by simp, above_parent _ _ (stat_mkdirAll_frame _ _ _ h1)⟩
    | other =>
      simp only [htf] at h
      obtain ⟨e2, he2, ha⟩ := ih _ h
      exact ⟨e2, by simp [he2], ha⟩

theorem above_of_inside (d t q : Path) (ht : Path.inside d t) (hq : Path.above t q) :
    Path.inside d q ∨ Path.above d q := by
  obtain ⟨h1, h2⟩ := ht
  obtain ⟨h3, h4⟩ := hq
  rcases Nat.le_total d.comps.length q.comps.length with hl | hl
  · exact Or.inl ⟨h3.trans h1, List.prefix_of_prefix_length_le h2 h4 hl⟩
  · exact Or.inr ⟨h3.trans h1, List.prefix_of_prefix_length_le h4 h2 hl⟩

/-- Extent of the defect behind C10: when no entry name has a `..` component, every
path that `BuildFromTar` creates or overwrites lies inside the extraction directory
`images/<id>`, or is that directory or an ancestor of it (made by the first
`os.MkdirAll`). Names that start with `/` are covered. -/
theorem buildFromTar_frame (env : BuildEnv) (fs : FS) (tar : Option TarStream)
    (name storageDir : String) (q : Path)
    (hnames : ∀ t, tar = some t → ∀ e ∈ t.entries, noDotDot e.h.Name)
    (h : stat (BuildFromTar env fs tar name storageDir).2 q ≠ stat fs q) :
    Path.inside (buildDir env storageDir) q ∨ Path.above (buildDir env storageDir) q := by
  by_cases h1 : stat (MkdirAll fs (buildDir env storageDir)).1 q = stat fs q
  · cases hm : MkdirAll fs (buildDir env storageDir) with
    | mk fs1 err =>
      simp only [BuildFromTar, hm] at h
      rw [hm] at h1
      simp only at h1
      cases err with
      | some er => exact absurd h1 h
      | none =>
        cases tar with
        | none => exact absurd h1 h
        | some t =>
          simp only at h
          have h2 : stat (extractLoop (buildDir env storageDir) t.entries fs1).1 q ≠
              stat fs1 q := by
            rw [h1]
            intro heq
            apply h
            rw [← heq]
            cases extractLoop (buildDir env storageDir) t.entries fs1 with
            | mk fs2 err2 =>
              cases err2 with
              | some er => rfl
              | none => cases t.err <;> rfl
          obtain ⟨e, he, ha⟩ := extractLoop_frame _ _ _ _ h2
          exact above_of_inside _ _ _ (join_inside _ _ (hnames t rfl e he)) ha
  · exact Or.inr (stat_mkdirAll_frame _ _ _ h1)

/-- C10: for an archive whose only entry is the regular file `../evil`, `BuildFromTar`
succeeds and returns an image whose `Rootfs` is `images/<id>`, yet the file it creates
is `images/evil`, which did not exist before and does not lie inside `images/<id>`. -/
theorem buildFromTar_escapes_rootfs :
    (BuildFromTar buildEnv fsStore (some tarEscape) "evil" engineRegistry.base).1 =
      Except.ok ⟨"evil", "1700000000000000007",
        "/tmp/mini-docker/registry/images/1700000000000000007", 1700000000, []⟩ ∧
    buildDir buildEnv engineRegistry.base =
      ⟨true, ["tmp", "mini-docker", "registry", "images", "1700000000000000007"]⟩ ∧
    stat fsStore ⟨true, ["tmp", "mini-docker", "registry", "images", "evil"]⟩ = none ∧
    stat (BuildFromTar buildEnv fsStore (some tarEscape) "evil" engineRegistry.base).2
      ⟨true, ["tmp", "mini-docker", "registry", "images", "evil"]⟩ =
        some (Node.file [104, 105]) ∧
    ¬ Path.inside (buildDir buildEnv engineRegistry.base)
      ⟨true, ["tmp", "mini-docker", "registry", "images", "evil"]⟩ := by
  decide

end MiniDocker
